import Mathlib

/-
Verification of the tredd content-delivery core against its implementation.

The development shallowly embeds the Go sources:
  - Serve                (serve.go)      : streaming encrypt-and-commit encoder
  - RevealKey            (tx.go)         : on-chain key reveal submission
  - the seller daemon    (cmd/tredd/server.go) : HTTP serve handler,
    transfer-record store, and startup claim-payment queueing.

Bytes are modelled as lists of naturals (each < 256 in practice; the
byte-level operations used here -- xor, varint coding -- are total on Nat).
The hash function is a parameter (sha : Bytes -> Bytes) throughout: every
theorem below holds for an arbitrary hash, in particular for SHA-256.
-/

namespace Tredd

abbrev Bytes := List Nat

/-! ### Varint coding (encoding/binary PutUvarint, Uvarint, PutVarint, Varint) -/

/-- Embedding of binary.PutUvarint: little-endian base-128 with continuation
bit 0x80 on every byte except the last. -/
def putUvarint (n : Nat) : Bytes :=
  if n < 128 then [n]
  else (n % 128 + 128) :: putUvarint (n / 128)
decreasing_by exact Nat.div_lt_self (by omega) (by omega)

/-- Embedding of the loop of binary.Uvarint: `i` counts bytes consumed,
`s` is the current shift, `x` the value accumulated so far.  Returns the
decoded value and the number of bytes consumed; `none` stands for the
n < 1 failure returns of the Go function (empty buffer, or 64-bit
overflow after 10 bytes or a 10th byte above 1). -/
def readUvarintAux : Bytes → Nat → Nat → Nat → Option (Nat × Nat)
  | [], _, _, _ => none
  | b :: rest, i, s, x =>
    if i = 10 then none
    else if b < 128 then
      if i = 9 ∧ b > 1 then none
      else some (x + b * 2 ^ s, i + 1)
    else readUvarintAux rest (i + 1) (s + 7) (x + b % 128 * 2 ^ s)

/-- Embedding of binary.Uvarint. -/
def readUvarint (buf : Bytes) : Option (Nat × Nat) :=
  readUvarintAux buf 0 0 0

/-- The zig-zag step of binary.PutVarint: ux := uint64(x) << 1, complemented
when x is negative. -/
def zigzag (x : Int) : Nat :=
  if x < 0 then (2 * (-x) - 1).toNat else (2 * x).toNat

/-- Embedding of binary.PutVarint. -/
def putVarint (x : Int) : Bytes :=
  putUvarint (zigzag x)

/-- Embedding of binary.Varint: decode a uvarint, then undo the zig-zag. -/
def readVarint (buf : Bytes) : Option (Int × Nat) :=
  (readUvarint buf).map fun p =>
    (if p.1 % 2 = 1 then -((p.1 / 2 : Nat) : Int) - 1 else ((p.1 / 2 : Nat) : Int), p.2)

theorem putUvarint_length_pos (n : Nat) : 0 < (putUvarint n).length := by
  rw [putUvarint]
  split
  · simp
  · simp

theorem readUvarintAux_putUvarint :
    ∀ fuel n i x : Nat, n ≤ fuel → i ≤ 9 → n < 2 ^ (64 - 7 * i) →
      readUvarintAux (putUvarint n) i (7 * i) x =
        some (x + n * 2 ^ (7 * i), i + (putUvarint n).length) := by
  intro fuel
  induction fuel with
  | zero =>
    intro n i x hf hi hn
    have hn0 : n = 0 := by omega
    subst hn0
    rw [putUvarint]
    simp only [if_pos (by omega : (0:Nat) < 128)]
    unfold readUvarintAux
    have h10 : ¬ i = 10 := by omega
    have hb : (0:Nat) < 128 := by omega
    simp [h10, hb]
  | succ fuel ih =>
    intro n i x hf hi hn
    rw [putUvarint]
    by_cases h : n < 128
    · simp only [if_pos h]
      unfold readUvarintAux
      have h10 : ¬ i = 10 := by omega
      have hb9 : ¬ (i = 9 ∧ n > 1) := by
        rintro ⟨h9, hgt⟩
        subst h9
        have : (64 : Nat) - 7 * 9 = 1 := by norm_num
        rw [this] at hn
        omega
      simp [h10, h, hb9]
    · simp only [if_neg h]
      unfold readUvarintAux
      have h10 : ¬ i = 10 := by omega
      have hbig : ¬ (n % 128 + 128 < 128) := by omega
      -- if i were 9 the bound would force n < 2, contradicting 128 ≤ n
      have hi8 : i ≤ 8 := by
        by_contra hgt
        have h9 : i = 9 := by omega
        subst h9
        have : (64 : Nat) - 7 * 9 = 1 := by norm_num
        rw [this] at hn
        omega
      have hmod : (n % 128 + 128) % 128 = n % 128 := by omega
      simp only [h10, if_neg h10, if_neg hbig, hmod]
      have hdivfuel : n / 128 ≤ fuel := by
        have : n / 128 < n := Nat.div_lt_self (by omega) (by omega)
        omega
      have hdivbound : n / 128 < 2 ^ (64 - 7 * (i + 1)) := by
        have h1 : n < 2 ^ (64 - 7 * i) := hn
        have hexp : 64 - 7 * i = (64 - 7 * (i + 1)) + 7 := by omega
        rw [hexp, pow_add] at h1
        apply Nat.div_lt_of_lt_mul
        calc n < 2 ^ (64 - 7 * (i + 1)) * 2 ^ 7 := h1
        _ = 128 * 2 ^ (64 - 7 * (i + 1)) := by ring
      have hrec := ih (n / 128) (i + 1) (x + n % 128 * 2 ^ (7 * i)) hdivfuel (by omega) hdivbound
      have hshift : 7 * i + 7 = 7 * (i + 1) := by ring
      rw [hshift, hrec]
      have hval : x + n % 128 * 2 ^ (7 * i) + n / 128 * 2 ^ (7 * (i + 1)) =
          x + n * 2 ^ (7 * i) := by
        have hpow : (2:Nat) ^ (7 * (i + 1)) = 2 ^ (7 * i) * 128 := by
          rw [show 7 * (i + 1) = 7 * i + 7 by ring, pow_add]
          norm_num
        calc x + n % 128 * 2 ^ (7 * i) + n / 128 * 2 ^ (7 * (i + 1))
            = x + n % 128 * 2 ^ (7 * i) + n / 128 * (2 ^ (7 * i) * 128) := by rw [hpow]
          _ = x + (n % 128 + 128 * (n / 128)) * 2 ^ (7 * i) := by ring
          _ = x + n * 2 ^ (7 * i) := by rw [Nat.mod_add_div]
      have hlen : i + 1 + (putUvarint (n / 128)).length =
          i + ((n % 128 + 128) :: putUvarint (n / 128) : Bytes).length := by
        simp only [List.length_cons]
        omega
      rw [hval, hlen]
      simp

theorem readUvarint_putUvarint (n : Nat) (hn : n < 2 ^ 64) :
    readUvarint (putUvarint n) = some (n, (putUvarint n).length) := by
  have h := readUvarintAux_putUvarint n n 0 0 le_rfl (by omega) (by simpa using hn)
  unfold readUvarint
  norm_num at h
  exact h

theorem zigzag_lt (x : Int) (h1 : -(2 ^ 63) ≤ x) (h2 : x < 2 ^ 63) :
    zigzag x < 2 ^ 64 := by
  unfold zigzag
  split <;> omega

theorem readVarint_putVarint (x : Int) (h1 : -(2 ^ 63) ≤ x) (h2 : x < 2 ^ 63) :
    readVarint (putVarint x) = some (x, (putVarint x).length) := by
  unfold readVarint putVarint
  rw [readUvarint_putUvarint (zigzag x) (zigzag_lt x h1 h2)]
  simp only [Option.map_some']
  congr 1
  unfold zigzag
  by_cases hx : x < 0
  · simp only [if_pos hx]
    have hmod : (2 * (-x) - 1).toNat % 2 = 1 := by omega
    rw [if_pos hmod]
    simp only [Prod.mk.injEq]
    exact ⟨by omega, trivial⟩
  · simp only [if_neg hx]
    have hmod : ¬ ((2 * x).toNat % 2 = 1) := by omega
    rw [if_neg hmod]
    simp only [Prod.mk.injEq]
    exact ⟨by omega, trivial⟩

/-! ### Chunk codec primitives

The hash, the keystream, the Merkle leaf/node hashing and the chunk size
are used by serve.go but defined outside src (package constants, crypt.go
and the merkle library), so they are modelled from the spec, with the
SHA-256 compression abstracted into a parameter `sha`. -/

/-- Modelled from the spec: CHUNK_SIZE is a protocol constant, recommended
8 KiB; its defining Go constant is not under src. -/
def ChunkSize : Nat := 8192

/-- Repeat a base byte string cyclically out to length `n` (the spec words:
"repeated and truncated to produce chunk-i bytes"). -/
def stretch (base : Bytes) (n : Nat) : Bytes :=
  (List.range n).map fun j => base.getD (j % base.length) 0

/-- Modelled from the spec: Keystream(key, i) is the hash of
(key || varint(i)), repeated and truncated to the needed length
(crypt.go is not under src). -/
def keystream (sha : Bytes → Bytes) (key : Bytes) (index n : Nat) : Bytes :=
  stretch (sha (key ++ putUvarint index)) n

/-- Modelled from the spec: crypt xors chunk `index` with its keystream
(crypt.go is not under src). -/
def cryptChunk (sha : Bytes → Bytes) (key : Bytes) (index : Nat) (chunk : Bytes) : Bytes :=
  List.zipWith (fun a b => a ^^^ b) chunk (keystream sha key index chunk.length)

/-- Modelled from the spec: Merkle leaves carry domain-separation byte 0x00
(RFC 6962; the merkle library is not under src). -/
def leafHash (sha : Bytes → Bytes) (x : Bytes) : Bytes :=
  sha (0 :: x)

/-- Modelled from the spec: Merkle interior nodes carry domain-separation
byte 0x01 (RFC 6962; the merkle library is not under src). -/
def nodeHash (sha : Bytes → Bytes) (l r : Bytes) : Bytes :=
  sha (1 :: (l ++ r))

/-- Largest power of two strictly below `n`, for `n ≥ 2` (the RFC 6962
split point). -/
def maxPow2Lt (n : Nat) : Nat :=
  if n ≤ 2 then 1
  else 2 * maxPow2Lt ((n + 1) / 2)
decreasing_by omega

theorem maxPow2Lt_bounds :
    ∀ fuel n : Nat, n ≤ fuel → 2 ≤ n → 1 ≤ maxPow2Lt n ∧ maxPow2Lt n < n := by
  intro fuel
  induction fuel with
  | zero => intro n hf h2; omega
  | succ fuel ih =>
    intro n hf h2
    rw [maxPow2Lt]
    by_cases h : n ≤ 2
    · simp only [if_pos h]
      omega
    · simp only [if_neg h]
      have hrec := ih ((n + 1) / 2) (by omega) (by omega)
      omega

/-- Modelled from the spec: the Merkle tree hash of a list of leaves,
"standard RFC 6962 construction"; per scenario S6 the empty tree hashes
to the hash of the empty leaf (the merkle library is not under src). -/
def MTH (sha : Bytes → Bytes) (ls : List Bytes) : Bytes :=
  match ls with
  | [] => leafHash sha []
  | [l] => leafHash sha l
  | a :: b :: rest =>
    let k := maxPow2Lt (a :: b :: rest).length
    nodeHash sha (MTH sha ((a :: b :: rest).take k)) (MTH sha ((a :: b :: rest).drop k))
termination_by ls.length
decreasing_by
  all_goals
    have hb := maxPow2Lt_bounds (rest.length + 1 + 1) (rest.length + 1 + 1) le_rfl (by omega)
  · simp only [List.length_take, List.length_cons] at *
    omega
  · simp only [List.length_drop, List.length_cons] at *
    omega

/-! ### The reader model

An io.Reader is modelled as the list of byte strings its successive Read
calls deliver; end of the list is EOF.  `readFull k r` is io.ReadFull on a
k-byte buffer: it returns the bytes obtained and the remaining reader
state (a chunk only partly consumed is pushed back). -/

def readFull (k : Nat) : List Bytes → Bytes × List Bytes
  | [] => ([], [])
  | chunk :: rest =>
    if k = 0 then ([], chunk :: rest)
    else if k ≤ chunk.length then (chunk.take k, chunk.drop k :: rest)
    else
      let r := readFull (k - chunk.length) rest
      (chunk ++ r.1, r.2)

theorem readFull_fst : ∀ (r : List Bytes) (k : Nat), (readFull k r).1 = r.flatten.take k := by
  intro r
  induction r with
  | nil => intro k; simp [readFull]
  | cons chunk rest ih =>
    intro k
    rw [readFull]
    by_cases h0 : k = 0
    · subst h0
      simp
    · by_cases hle : k ≤ chunk.length
      · simp only [if_neg h0, if_pos hle, List.flatten_cons]
        rw [List.take_append_eq_append_take, Nat.sub_eq_zero_of_le hle]
        simp
      · simp only [if_neg h0, if_neg hle, List.flatten_cons]
        rw [ih, List.take_append_eq_append_take,
          List.take_of_length_le (by omega : chunk.length ≤ k)]

theorem readFull_snd : ∀ (r : List Bytes) (k : Nat), (readFull k r).2.flatten = r.flatten.drop k := by
  intro r
  induction r with
  | nil => intro k; simp [readFull]
  | cons chunk rest ih =>
    intro k
    rw [readFull]
    by_cases h0 : k = 0
    · subst h0
      simp
    · by_cases hle : k ≤ chunk.length
      · simp only [if_neg h0, if_pos hle, List.flatten_cons]
        rw [List.drop_append_eq_append_drop, Nat.sub_eq_zero_of_le hle]
        simp
      · simp only [if_neg h0, if_neg hle, List.flatten_cons]
        rw [ih, List.drop_append_eq_append_drop,
          List.drop_eq_nil_of_le (by omega : chunk.length ≤ k)]
        simp

/-! ### Serve (serve.go)

The loop of Serve: at each index it fills a ChunkSize buffer with
io.ReadFull, stops when the read yields zero bytes at EOF, emits the leaf
hash of (varint(index) || chunk) followed by the encrypted chunk, and adds
(varint(index) || cipher chunk) as a leaf of the cipher Merkle tree.  The
function returns the emitted stream together with the cipher leaves in
order; Serve takes the root at the end. -/

def serveLoop (sha : Bytes → Bytes) (key : Bytes) (index : Nat) (r : List Bytes) :
    Bytes × List Bytes :=
  match h : (readFull ChunkSize r).1 with
  | [] => ([], [])
  | b :: bs =>
    let chunk := b :: bs
    let cipher := cryptChunk sha key index chunk
    let rest := serveLoop sha key (index + 1) (readFull ChunkSize r).2
    (leafHash sha (putUvarint index ++ chunk) ++ cipher ++ rest.1,
     (putUvarint index ++ cipher) :: rest.2)
termination_by r.flatten.length
decreasing_by
  rw [readFull_snd, List.length_drop]
  rw [readFull_fst] at h
  have hne : r.flatten ≠ [] := by
    intro hnil
    rw [hnil] at h
    simp at h
  have hcs : 0 < ChunkSize := by norm_num [ChunkSize]
  have hpos : 0 < r.flatten.length := List.length_pos.mpr hne
  omega

theorem serveLoop_stop (sha : Bytes → Bytes) (key : Bytes) (i : Nat) (r : List Bytes)
    (h : (readFull ChunkSize r).1 = []) : serveLoop sha key i r = ([], []) := by
  rw [serveLoop.eq_def]
  split
  · rfl
  · rename_i b bs heq
    rw [h] at heq
    cases heq

theorem serveLoop_go (sha : Bytes → Bytes) (key : Bytes) (i : Nat) (r : List Bytes)
    (h : (readFull ChunkSize r).1 ≠ []) :
    serveLoop sha key i r =
      (leafHash sha (putUvarint i ++ (readFull ChunkSize r).1) ++
         cryptChunk sha key i (readFull ChunkSize r).1 ++
         (serveLoop sha key (i + 1) (readFull ChunkSize r).2).1,
       (putUvarint i ++ cryptChunk sha key i (readFull ChunkSize r).1) ::
         (serveLoop sha key (i + 1) (readFull ChunkSize r).2).2) := by
  rw [serveLoop.eq_def]
  split
  · rename_i heq
    exact absurd heq h
  · rename_i b bs heq
    rw [heq]

/-- Serve run against an arbitrary reader: the emitted stream and the
Merkle root of the cipher-chunk leaves. -/
def ServeReader (sha : Bytes → Bytes) (key : Bytes) (r : List Bytes) : Bytes × Bytes :=
  let p := serveLoop sha key 0 r
  (p.1, MTH sha p.2)

/-- Embedding of Serve (serve.go) on given file contents: the byte stream
written to `w` and the returned Merkle root hash of the cipher chunks,
each prepended with its chunk index. -/
def Serve (sha : Bytes → Bytes) (key : Bytes) (data : Bytes) : Bytes × Bytes :=
  ServeReader sha key [data]

/-! ### Spec-side description of the encoding (spec sections 4.A and 6) -/

/-- The cleartext chunking: CHUNK_SIZE spans, the last possibly shorter,
none trailing empty. -/
def chunksOf (data : Bytes) : List Bytes :=
  match data with
  | [] => []
  | a :: rest => (a :: rest).take ChunkSize :: chunksOf ((a :: rest).drop ChunkSize)
termination_by data.length
decreasing_by
  have hcs : 0 < ChunkSize := by norm_num [ChunkSize]
  simp only [List.length_drop, List.length_cons]
  omega

theorem chunksOf_nil : chunksOf [] = [] := by
  rw [chunksOf.eq_def]

theorem chunksOf_ne (data : Bytes) (h : data ≠ []) :
    chunksOf data = data.take ChunkSize :: chunksOf (data.drop ChunkSize) := by
  cases data with
  | nil => exact absurd rfl h
  | cons a rest => rw [chunksOf.eq_def]

/-- Record i of the wire format: (clearHash_i || cipherChunk_i), with
clearHash_i the leaf hash of (varint(i) || chunk_i). -/
def wireRecord (sha : Bytes → Bytes) (key : Bytes) (i : Nat) (chunk : Bytes) : Bytes :=
  leafHash sha (putUvarint i ++ chunk) ++ cryptChunk sha key i chunk

/-- Cipher-tree leaf i: (varint(i) || cipherChunk_i). -/
def cipherLeaf (sha : Bytes → Bytes) (key : Bytes) (i : Nat) (chunk : Bytes) : Bytes :=
  putUvarint i ++ cryptChunk sha key i chunk

/-- The spec wire format: the concatenation of the records in strict
chunk-index order starting at index 0. -/
def specStream (sha : Bytes → Bytes) (key : Bytes) (data : Bytes) : Bytes :=
  ((List.enumFrom 0 (chunksOf data)).map fun p => wireRecord sha key p.1 p.2).flatten

/-- The spec cipher Merkle root: root over leaves (varint(i) || cipherChunk_i). -/
def cipherMerkleRoot (sha : Bytes → Bytes) (key : Bytes) (data : Bytes) : Bytes :=
  MTH sha ((List.enumFrom 0 (chunksOf data)).map fun p => cipherLeaf sha key p.1 p.2)

/-- The spec clear Merkle root (spec section 3): root over leaves
(varint(i) || chunk_i cleartext). -/
def clearMerkleRoot (sha : Bytes → Bytes) (data : Bytes) : Bytes :=
  MTH sha ((List.enumFrom 0 (chunksOf data)).map fun p => putUvarint p.1 ++ p.2)

theorem serveLoop_closed (sha : Bytes → Bytes) (key : Bytes) :
    ∀ (n : Nat) (i : Nat) (r : List Bytes), r.flatten.length ≤ n →
      serveLoop sha key i r =
        (((List.enumFrom i (chunksOf r.flatten)).map fun p => wireRecord sha key p.1 p.2).flatten,
         (List.enumFrom i (chunksOf r.flatten)).map fun p => cipherLeaf sha key p.1 p.2) := by
  intro n
  induction n with
  | zero =>
    intro i r hn
    have hnil : r.flatten = [] := by
      cases hflat : r.flatten with
      | nil => rfl
      | cons a l => rw [hflat] at hn; simp at hn
    rw [serveLoop_stop sha key i r (by rw [readFull_fst, hnil]; simp), hnil, chunksOf_nil]
    simp
  | succ n ih =>
    intro i r hn
    by_cases hc : (readFull ChunkSize r).1 = []
    · rw [serveLoop_stop sha key i r hc]
      rw [readFull_fst] at hc
      have hnil : r.flatten = [] := by
        rcases List.take_eq_nil_iff.mp hc with h | h
        · exact absurd h (by norm_num [ChunkSize])
        · exact h
      rw [hnil, chunksOf_nil]
      simp
    · rw [serveLoop_go sha key i r hc]
      rw [readFull_fst] at hc
      have hfne : r.flatten ≠ [] := by
        intro hnil
        rw [hnil] at hc
        simp at hc
      have hchunks : chunksOf r.flatten =
          r.flatten.take ChunkSize :: chunksOf (r.flatten.drop ChunkSize) :=
        chunksOf_ne r.flatten hfne
      have hrest : (readFull ChunkSize r).2.flatten = r.flatten.drop ChunkSize :=
        readFull_snd r ChunkSize
      have hlen : (readFull ChunkSize r).2.flatten.length ≤ n := by
        rw [hrest, List.length_drop]
        have hcs : 0 < ChunkSize := by norm_num [ChunkSize]
        have hpos : 0 < r.flatten.length := List.length_pos.mpr hfne
        omega
      have hih := ih (i + 1) (readFull ChunkSize r).2 hlen
      rw [hih, hrest, hchunks]
      simp only [readFull_fst, List.enumFrom, List.map_cons, List.flatten_cons,
        wireRecord, cipherLeaf, List.append_assoc]

theorem ServeReader_eq (sha : Bytes → Bytes) (key : Bytes) (r : List Bytes) :
    ServeReader sha key r =
      (specStream sha key r.flatten,
       MTH sha ((List.enumFrom 0 (chunksOf r.flatten)).map fun p => cipherLeaf sha key p.1 p.2)) := by
  unfold ServeReader specStream
  rw [serveLoop_closed sha key r.flatten.length 0 r le_rfl]

theorem Serve_eq (sha : Bytes → Bytes) (key : Bytes) (data : Bytes) :
    Serve sha key data = (specStream sha key data, cipherMerkleRoot sha key data) := by
  unfold Serve cipherMerkleRoot
  rw [ServeReader_eq]
  simp

theorem cryptChunk_length (sha : Bytes → Bytes) (key : Bytes) (i : Nat) (chunk : Bytes) :
    (cryptChunk sha key i chunk).length = chunk.length := by
  unfold cryptChunk keystream stretch
  simp

/-! ### RevealKey (tx.go)

The chain is modelled as a partial map from contract addresses to the
parameters of deployed Tredd contracts.  RevealKey instantiates the
contract at the given address (NewTredd, which fails when nothing is
deployed there) and then invokes con.Reveal(seller, key); the Go function
has TODO comments in place of reading back the on-chain parameters and of
supplying collateral, so the submission carries the key only. -/

structure TreddParams where
  clearRoot : Bytes
  cipherRoot : Bytes
  revealDeadline : Nat
  refundDeadline : Nat
deriving DecidableEq

/-- A reveal call as submitted to the chain: the key it publishes and the
collateral deposit attached to the call (none when no collateral is
supplied). -/
structure RevealSubmission where
  key : Bytes
  collateral : Option Int
deriving DecidableEq

def chainLookup (addr : Nat) : List (Nat × TreddParams) → Option TreddParams
  | [] => none
  | (a, p) :: rest => if a = addr then some p else chainLookup addr rest

/-- Embedding of RevealKey (tx.go): NewTredd on contractAddr, then
con.Reveal(seller, key).  The want parameters are accepted but never
compared against the deployed contract, and no collateral accompanies the
call (both are TODOs in the source). -/
def RevealKey (chain : List (Nat × TreddParams)) (contractAddr : Nat) (key : Bytes)
    (wantClearRoot wantCipherRoot : Bytes) (wantRevealDeadline wantRefundDeadline : Nat) :
    Option RevealSubmission :=
  match chainLookup contractAddr chain with
  | none => none
  | some _ => some { key := key, collateral := none }

/-! ### The seller daemon (cmd/tredd/server.go)

Time is modelled in integer milliseconds and nanoseconds since the epoch.
bc.Millis truncates a time to milliseconds; bc.FromMillis maps a
millisecond count back to a time. -/

def millis (tNanos : Nat) : Nat := tNanos / 1000000

def fromMillis (ms : Nat) : Nat := ms * 1000000

/-- The transfer record of the server (serverRecord / tredd.ParseResult
fields used by server.go).  Deadlines are nanoseconds since the epoch. -/
structure ServerRecord where
  transferID : Bytes
  amount : Int
  assetID : Bytes
  anchor1 : Bytes
  anchor2 : Bytes
  clearRoot : Bytes
  cipherRoot : Bytes
  revealDeadline : Nat
  refundDeadline : Nat
  buyer : Bytes
  seller : Bytes
  key : Bytes
  outputID : Bytes
deriving DecidableEq

/-- One bbolt record bucket: the values stored under the fixed keys used
by storeRecord/getRecord. -/
structure Bucket where
  amount : Bytes
  assetID : Bytes
  anchor1 : Bytes
  anchor2 : Bytes
  clearRoot : Bytes
  cipherRoot : Bytes
  revealDeadlineMS : Bytes
  refundDeadlineMS : Bytes
  buyer : Bytes
  seller : Bytes
  key : Bytes
  outputID : Bytes
deriving DecidableEq

/-- The records bucket: transferID-keyed buckets. -/
abbrev Db := List (Bytes × Bucket)

def dbLookup (tid : Bytes) : Db → Option Bucket
  | [] => none
  | (t, b) :: rest => if t = tid then some b else dbLookup tid rest

def dbInsert (tid : Bytes) (b : Bucket) : Db → Db
  | [] => [(tid, b)]
  | (t, b0) :: rest => if t = tid then (t, b) :: rest else (t, b0) :: dbInsert tid b rest

/-- The serialized bucket written by storeRecord: amount as a signed
varint, the deadlines as uvarints of their bc.Millis values, everything
else raw. -/
def bucketOfRecord (rec : ServerRecord) : Bucket :=
  { amount := putVarint rec.amount
    assetID := rec.assetID
    anchor1 := rec.anchor1
    anchor2 := rec.anchor2
    clearRoot := rec.clearRoot
    cipherRoot := rec.cipherRoot
    revealDeadlineMS := putUvarint (millis rec.revealDeadline)
    refundDeadlineMS := putUvarint (millis rec.refundDeadline)
    buyer := rec.buyer
    seller := rec.seller
    key := rec.key
    outputID := rec.outputID }

/-- Embedding of server.storeRecord: create the bucket for the transferID
(replacing its contents if present) and put every field. -/
def storeRecord (rec : ServerRecord) (db : Db) : Db :=
  dbInsert rec.transferID (bucketOfRecord rec) db

/-- Embedding of server.getRecord: look the bucket up and parse the stored
fields.  Only key, clearRoot, cipherRoot, assetID, amount and the two
deadlines are read back; the remaining fields of the returned record stay
at their zero values.  `none` stands for the error returns. -/
def getRecord (db : Db) (tid : Bytes) : Option ServerRecord :=
  match dbLookup tid db with
  | none => none
  | some bu =>
    match readVarint bu.amount with
    | none => none
    | some (amount, _) =>
      match readUvarint bu.revealDeadlineMS with
      | none => none
      | some (revealMS, _) =>
        match readUvarint bu.refundDeadlineMS with
        | none => none
        | some (refundMS, _) =>
          some { transferID := tid
                 amount := amount
                 assetID := bu.assetID
                 anchor1 := []
                 anchor2 := []
                 clearRoot := bu.clearRoot
                 cipherRoot := bu.cipherRoot
                 revealDeadline := fromMillis revealMS
                 refundDeadline := fromMillis refundMS
                 buyer := []
                 seller := []
                 key := bu.key
                 outputID := [] }

/-! ### Startup claim-payment queueing (serve / queueClaimPayment) -/

/-- A deadline-queue entry made by queueClaimPaymentHelper: the enqueued
claim-payment action is due at the refundDeadline of the record it
captures. -/
structure ClaimEntry where
  dueAt : Nat
  transferID : Bytes
deriving DecidableEq

/-- Embedding of server.queueClaimPaymentHelper: enqueue on the observer
queue at rec.RefundDeadline the claim-payment action for this transfer. -/
def queueClaimPaymentHelper (rec : ServerRecord) : ClaimEntry :=
  { dueAt := rec.refundDeadline, transferID := rec.transferID }

/-- Embedding of server.queueClaimPayment: load the record, then enqueue. -/
def queueClaimPayment (db : Db) (tid : Bytes) : Option ClaimEntry :=
  (getRecord db tid).map queueClaimPaymentHelper

/-- The startup loop of serve: for each transferID found in the records
bucket, queueClaimPayment; the first failure aborts (log.Fatal). -/
def enqueueAll (db : Db) : List Bytes → Option (List ClaimEntry)
  | [] => some []
  | tid :: rest =>
    match queueClaimPayment db tid with
    | none => none
    | some e => (enqueueAll db rest).map fun es => e :: es

/-- Embedding of the startup scan in serve (cmd/tredd/server.go): collect
the transferIDs of all persisted records, then enqueue a claim-payment
action for each. -/
def startupEnqueue (db : Db) : Option (List ClaimEntry) :=
  enqueueAll db (db.map fun p => p.1)

/-! ### The HTTP serve handler (server.serve, cmd/tredd/server.go)

The request carries the five form values; a field is `none` when its hex
or integer parsing fails (hex.DecodeString, strconv.ParseInt,
strconv.ParseUint).  The environment carries the wall clock, the content
file found under the clearRoot path (none when os.IsNotExist), the random
bytes drawn for key and transferID, and one flag per fallible I/O step of
the handler, true when that step succeeds. -/

structure ServeRequest where
  clearRoot : Option Bytes
  amount : Option Int
  assetID : Option Bytes
  revealDeadlineMS : Option Nat
  refundDeadlineMS : Option Nat
deriving DecidableEq

structure ServeEnv where
  nowMS : Nat
  fileContents : Option Bytes
  contentTypeOk : Bool
  key : Bytes
  randKeyOk : Bool
  transferID : Bytes
  randTidOk : Bool
  sellerKey : Bytes
  tempfileOk : Bool
  closeOk : Bool
  storeOk : Bool
  reopenOk : Bool
  copyOk : Bool
deriving DecidableEq

/-- The observable outcome of the handler: either the streamed response
(transfer id header, response body, stored record) or an HTTP error
status. -/
inductive ServeResult where
  | stream (transferID : Bytes) (body : Bytes) (rec : ServerRecord) : ServeResult
  | reject (status : Nat) : ServeResult
deriving DecidableEq

def isStream : ServeResult → Bool
  | .stream _ _ _ => true
  | .reject _ => false

/-- The response body of a result, none for a rejection. -/
def bodyOf : ServeResult → Option Bytes
  | .stream _ b _ => some b
  | .reject _ => none

/-- minRevealDur = 10 * time.Minute, in milliseconds. -/
def minRevealDurMS : Int := 600000

/-- maxRefundDur = time.Hour, in milliseconds. -/
def maxRefundDurMS : Int := 3600000

/-- Embedding of server.checkPrice: any positive amount is accepted. -/
def checkPrice (amount : Int) : Bool :=
  amount > 0

/-- The tail of server.serve after the request parameters validate: draw
the cipher key (500 on randomness failure), draw the transferID (500),
create the response tempfile (500), run Serve into it, close the tempfile
(500), store the transfer record (500), reopen (500) and copy the stream
to the response writer (500). -/
def serveFinish (sha : Bytes → Bytes) (env : ServeEnv) (clearRoot : Bytes) (amount : Int)
    (assetID : Bytes) (revealMS refundMS : Nat) (f : Bytes) : ServeResult :=
  if !env.randKeyOk then .reject 500
  else if !env.randTidOk then .reject 500
  else if !env.tempfileOk then .reject 500
  else
    let p := Serve sha env.key f
    if !env.closeOk then .reject 500
    else if !env.storeOk then .reject 500
    else if !env.reopenOk then .reject 500
    else if !env.copyOk then .reject 500
    else
      .stream env.transferID p.1
        { transferID := env.transferID
          amount := amount
          assetID := assetID
          anchor1 := []
          anchor2 := []
          clearRoot := clearRoot
          cipherRoot := p.2
          revealDeadline := fromMillis revealMS
          refundDeadline := fromMillis refundMS
          buyer := []
          seller := env.sellerKey
          key := env.key
          outputID := [] }

/-- Embedding of server.serve, the delivery-request handler.  The checks
appear in source order: clearRoot hex decode (400), content file lookup
(404), content-type read (500), amount parse (400), amount < 1 (400),
assetID hex decode (400), checkPrice (400), reveal deadline parse (400),
reveal deadline less than minRevealDur away (400), refund deadline parse
(400), refund window above maxRefundDur (400), then serveFinish for the
response stream itself. -/
def serveHandler (sha : Bytes → Bytes) (req : ServeRequest) (env : ServeEnv) : ServeResult :=
  match req.clearRoot with
  | none => .reject 400
  | some clearRoot =>
    match env.fileContents with
    | none => .reject 404
    | some f =>
      if !env.contentTypeOk then .reject 500
      else match req.amount with
      | none => .reject 400
      | some amount =>
        if amount < 1 then .reject 400
        else match req.assetID with
        | none => .reject 400
        | some assetID =>
          if !(checkPrice amount) then .reject 400
          else match req.revealDeadlineMS with
          | none => .reject 400
          | some revealMS =>
            if (revealMS : Int) - (env.nowMS : Int) < minRevealDurMS then .reject 400
            else match req.refundDeadlineMS with
            | none => .reject 400
            | some refundMS =>
              if (refundMS : Int) - (revealMS : Int) > maxRefundDurMS then .reject 400
              else serveFinish sha env clearRoot amount assetID revealMS refundMS f

/-! ### Small evaluation lemmas and demonstration values -/

theorem putUvarint_small (n : Nat) (h : n < 128) : putUvarint n = [n] := by
  rw [putUvarint, if_pos h]

theorem MTH_nil (sha : Bytes → Bytes) : MTH sha [] = leafHash sha [] := by
  rw [MTH.eq_def]

theorem MTH_single (sha : Bytes → Bytes) (l : Bytes) : MTH sha [l] = leafHash sha l := by
  rw [MTH.eq_def]

theorem chunksOf_short (data : Bytes) (h0 : data ≠ []) (h1 : data.length ≤ ChunkSize) :
    chunksOf data = [data] := by
  rw [chunksOf_ne data h0, List.take_of_length_le h1, List.drop_eq_nil_of_le h1, chunksOf_nil]

/-- A demonstration hash: the byte sum reduced mod 256. -/
def shaDemo : Bytes → Bytes := fun b => [b.sum % 256]

/-- A demonstration hash with 32-byte output. -/
def sha32Demo : Bytes → Bytes := fun b => List.replicate 32 (b.sum % 256)

/-- A demonstration 32-byte key. -/
def keyDemo : Bytes := List.replicate 32 1

/-! ### The claims -/

/-- C1 counterexample: at file [7] under keyDemo, Serve returns a single
root equal to the cipher Merkle root and different from the clear Merkle
root, so the clear root is not among its results: Serve does not build a
clear Merkle tree and does not return both roots. -/
theorem claim_C1_counterexample :
    (Serve shaDemo keyDemo [7]).2 ≠ clearMerkleRoot shaDemo [7] ∧
    (Serve shaDemo keyDemo [7]).2 = cipherMerkleRoot shaDemo keyDemo [7] := by
  have hch : chunksOf [7] = [[7]] := chunksOf_short [7] (by simp) (by norm_num [ChunkSize])
  have hp0 : putUvarint 0 = [0] := putUvarint_small 0 (by norm_num)
  constructor
  · rw [Serve_eq]
    show cipherMerkleRoot shaDemo keyDemo [7] ≠ clearMerkleRoot shaDemo [7]
    unfold cipherMerkleRoot clearMerkleRoot
    rw [hch]
    simp only [List.enumFrom, List.map_cons, List.map_nil, MTH_single, cipherLeaf,
      cryptChunk, keystream, stretch, leafHash, hp0, shaDemo, keyDemo]
    decide
  · rw [Serve_eq]

/-- C1 (amended): Serve computes each clear leaf hash and emits it on the
stream, but builds only the cipher Merkle tree and returns only the cipher
Merkle root; no clear root is returned. -/
theorem claim_C1_returns_cipher_root_only (sha : Bytes → Bytes) (key data : Bytes) :
    (Serve sha key data).2 = cipherMerkleRoot sha key data := by
  rw [Serve_eq]

/-- C4: Serve writes exactly the concatenation, in chunk-index order from
0, of the records (clearHash_i || cipherChunk_i) with clearHash_i the leaf
hash of (varint(i) || chunk_i) and cipherChunk_i the chunk xored with
keystream i, and returns the Merkle root over the leaves
(varint(i) || cipherChunk_i); when the hash has 32-byte output every
emitted clearHash_i is 32 bytes. -/
theorem claim_C4_wire_format (sha : Bytes → Bytes) (key data : Bytes) :
    Serve sha key data = (specStream sha key data, cipherMerkleRoot sha key data) ∧
    ((∀ b, (sha b).length = 32) →
      ∀ p ∈ List.enumFrom 0 (chunksOf data), (leafHash sha (putUvarint p.1 ++ p.2)).length = 32) := by
  refine ⟨Serve_eq sha key data, ?_⟩
  intro h32 p _
  simp [leafHash, h32]

/-- C4 witness: the wire-format theorem applied at a concrete input and a
concrete 32-byte hash. -/
theorem claim_C4_witness :
    Serve sha32Demo keyDemo [7] =
      (specStream sha32Demo keyDemo [7], cipherMerkleRoot sha32Demo keyDemo [7]) ∧
    (leafHash sha32Demo (putUvarint 0 ++ [7])).length = 32 := by
  constructor
  · exact (claim_C4_wire_format sha32Demo keyDemo [7]).1
  · have hmem : ((0 : Nat), ([7] : Bytes)) ∈ List.enumFrom 0 (chunksOf [7]) := by
      rw [chunksOf_short [7] (by simp) (by norm_num [ChunkSize])]
      simp [List.enumFrom]
    exact (claim_C4_wire_format sha32Demo keyDemo [7]).2 (fun b => by simp [sha32Demo]) _ hmem

/-- C6: on input of length CHUNK_SIZE + 5, Serve emits exactly two
records, and the last cipher chunk is exactly 5 bytes. -/
theorem claim_C6_short_last_chunk (sha : Bytes → Bytes) (key data : Bytes)
    (h : data.length = ChunkSize + 5) :
    (Serve sha key data).1 =
      wireRecord sha key 0 (data.take ChunkSize) ++ wireRecord sha key 1 (data.drop ChunkSize) ∧
    (chunksOf data).length = 2 ∧
    (cryptChunk sha key 1 (data.drop ChunkSize)).length = 5 := by
  have hne : data ≠ [] := by
    intro hn
    rw [hn] at h
    norm_num [ChunkSize] at h
  have hd : (data.drop ChunkSize).length = 5 := by
    rw [List.length_drop, h]
    omega
  have hch : chunksOf data = [data.take ChunkSize, data.drop ChunkSize] := by
    rw [chunksOf_ne data hne, chunksOf_short (data.drop ChunkSize)
      (by intro hn; rw [hn] at hd; simp at hd) (by rw [hd]; norm_num [ChunkSize])]
  refine ⟨?_, by rw [hch]; rfl, by rw [cryptChunk_length, hd]⟩
  have hs := Serve_eq sha key data
  rw [hs]
  show specStream sha key data = _
  unfold specStream
  rw [hch]
  simp [List.enumFrom]

/-- C6 witness: the short-last-chunk theorem applied at the all-zero file
of length CHUNK_SIZE + 5. -/
theorem claim_C6_witness :
    (chunksOf (List.replicate (ChunkSize + 5) 0)).length = 2 ∧
    (cryptChunk shaDemo keyDemo 1 ((List.replicate (ChunkSize + 5) 0 : Bytes).drop ChunkSize)).length
      = 5 :=
  ⟨(claim_C6_short_last_chunk shaDemo keyDemo _ (by simp)).2.1,
   (claim_C6_short_last_chunk shaDemo keyDemo _ (by simp)).2.2⟩

/-- C7: on the empty file, Serve writes zero records and returns the hash
of the empty leaf as the cipher root. -/
theorem claim_C7_empty_file (sha : Bytes → Bytes) (key : Bytes) :
    Serve sha key [] = ([], leafHash sha []) := by
  rw [Serve_eq]
  unfold specStream cipherMerkleRoot
  rw [chunksOf_nil]
  simp [MTH_nil]

/-- C9: Serve is deterministic: any two runs whose readers deliver the
same file contents (under any partition into Read results) produce the
identical byte stream and root. -/
theorem claim_C9_determinism (sha : Bytes → Bytes) (key : Bytes) (r1 r2 : List Bytes)
    (h : r1.flatten = r2.flatten) :
    ServeReader sha key r1 = ServeReader sha key r2 := by
  rw [ServeReader_eq, ServeReader_eq, h]

/-- C9 witness: two different read partitions of the same three bytes
produce the same stream and root. -/
theorem claim_C9_witness :
    ([[1, 2], [3]] : List Bytes).flatten = ([[1], [2, 3]] : List Bytes).flatten ∧
    ServeReader shaDemo keyDemo [[1, 2], [3]] = ServeReader shaDemo keyDemo [[1], [2, 3]] :=
  ⟨by decide, claim_C9_determinism shaDemo keyDemo _ _ (by decide)⟩

/-- A request with its refund deadline 10 minutes BEFORE its reveal
deadline (reveal at t=20min, refund at t=10min, both in ms). -/
def reqC2 : ServeRequest :=
  { clearRoot := some []
    amount := some 1
    assetID := some []
    revealDeadlineMS := some 1200000
    refundDeadlineMS := some 600000 }

/-- A fully healthy environment at time zero holding a one-byte file. -/
def envC2 : ServeEnv :=
  { nowMS := 0
    fileContents := some [7]
    contentTypeOk := true
    key := keyDemo
    randKeyOk := true
    transferID := [9]
    randTidOk := true
    sellerKey := []
    tempfileOk := true
    closeOk := true
    storeOk := true
    reopenOk := true
    copyOk := true }

theorem isStream_iff (res : ServeResult) :
    isStream res = true ↔ ∃ t b rec, res = .stream t b rec := by
  cases res <;> simp [isStream]

/-- C2 counterexample: the serve handler accepts (streams a response for)
a request whose refundDeadline (600000 ms) is strictly EARLIER than its
revealDeadline (1200000 ms), so accepted requests do not satisfy
revealDeadline < refundDeadline. -/
theorem claim_C2_counterexample :
    isStream (serveHandler shaDemo reqC2 envC2) = true ∧
    reqC2.revealDeadlineMS = some 1200000 ∧
    reqC2.refundDeadlineMS = some 600000 ∧
    (600000 : Nat) < 1200000 :=
  ⟨rfl, rfl, rfl, by norm_num⟩

/-- C2 (amended): the serve handler checks only that the reveal deadline
is at least minRevealDur after now and that the refund deadline is at most
maxRefundDur after the reveal deadline; it does not compare the two
deadlines with each other, so every accepted request satisfies exactly
those two bounds. -/
theorem claim_C2_accepted_deadline_bounds (sha : Bytes → Bytes) (req : ServeRequest)
    (env : ServeEnv) (h : isStream (serveHandler sha req env) = true) :
    ∃ revealMS refundMS : Nat,
      req.revealDeadlineMS = some revealMS ∧ req.refundDeadlineMS = some refundMS ∧
      minRevealDurMS ≤ (revealMS : Int) - (env.nowMS : Int) ∧
      (refundMS : Int) - (revealMS : Int) ≤ maxRefundDurMS := by
  rw [isStream_iff] at h
  obtain ⟨t, b, rec, h⟩ := h
  unfold serveHandler at h
  repeat' split at h
  all_goals try cases h
  all_goals exact ⟨_, _, by assumption, by assumption, by omega, by omega⟩

/-- C2 witness: the amended theorem applied to the accepted request of the
counterexample input. -/
theorem claim_C2_witness :
    ∃ revealMS refundMS : Nat,
      reqC2.revealDeadlineMS = some revealMS ∧ reqC2.refundDeadlineMS = some refundMS ∧
      minRevealDurMS ≤ (revealMS : Int) - (envC2.nowMS : Int) ∧
      (refundMS : Int) - (revealMS : Int) ≤ maxRefundDurMS :=
  claim_C2_accepted_deadline_bounds shaDemo reqC2 envC2 rfl

/-- A deployed contract for the C3 input. -/
def paramsC3 : TreddParams :=
  { clearRoot := [1], cipherRoot := [2], revealDeadline := 5, refundDeadline := 9 }

/-- C3 counterexample: the contract deployed at address 0 has clearRoot
[1], different from the wanted clearRoot [3], yet RevealKey submits the
reveal anyway, and the submission carries no collateral. -/
theorem claim_C3_counterexample :
    RevealKey [(0, paramsC3)] 0 keyDemo [3] [2] 5 9 =
      some { key := keyDemo, collateral := none } ∧
    paramsC3.clearRoot ≠ [3] := by
  constructor
  · rfl
  · decide

/-- C3 (amended): whenever RevealKey submits at all (the contract address
resolves), it submits the given key unconditionally, without comparing the
deployed parameters against the wanted ones and with no collateral
attached to the call. -/
theorem claim_C3_reveals_without_checks (chain : List (Nat × TreddParams)) (addr : Nat)
    (key wantClearRoot wantCipherRoot : Bytes) (wantRevealDeadline wantRefundDeadline : Nat)
    (sub : RevealSubmission)
    (h : RevealKey chain addr key wantClearRoot wantCipherRoot
      wantRevealDeadline wantRefundDeadline = some sub) :
    sub.key = key ∧ sub.collateral = none := by
  unfold RevealKey at h
  cases hc : chainLookup addr chain with
  | none =>
    rw [hc] at h
    cases h
  | some p =>
    rw [hc] at h
    injection h with h2
    rw [← h2]
    exact ⟨rfl, rfl⟩

/-- C3 witness: the amended theorem applied at the concrete chain of the
counterexample. -/
theorem claim_C3_witness :
    ({ key := keyDemo, collateral := none } : RevealSubmission).key = keyDemo ∧
    ({ key := keyDemo, collateral := none } : RevealSubmission).collateral = none :=
  claim_C3_reveals_without_checks [(0, paramsC3)] 0 keyDemo [3] [2] 5 9 _ rfl

theorem serveFinish_stream (sha : Bytes → Bytes) (env : ServeEnv) (clearRoot : Bytes)
    (amount : Int) (assetID : Bytes) (revealMS refundMS : Nat) (f : Bytes)
    (h1 : env.randKeyOk = true) (h2 : env.randTidOk = true) (h3 : env.tempfileOk = true)
    (h4 : env.closeOk = true) (h5 : env.storeOk = true) (h6 : env.reopenOk = true)
    (h7 : env.copyOk = true) :
    isStream (serveFinish sha env clearRoot amount assetID revealMS refundMS f) = true := by
  unfold serveFinish
  rw [h1, h2, h3, h4, h5, h6, h7]
  rfl

/-- A request with non-positive amount whose clearRoot maps to no stored
file. -/
def reqC5 : ServeRequest :=
  { clearRoot := some []
    amount := some (-5)
    assetID := some []
    revealDeadlineMS := some 1200000
    refundDeadlineMS := some 1500000 }

/-- The healthy environment of envC2, but with no file stored under the
requested clearRoot. -/
def envC5 : ServeEnv := { envC2 with fileContents := none }

/-- C5 counterexample: a request whose amount is non-positive AND whose
clearRoot maps to no stored file is rejected with 404, not 400: the
file-lookup rejection precedes the amount check, so 400 does not occur
precisely when the amount is non-positive. -/
theorem claim_C5_counterexample :
    serveHandler shaDemo reqC5 envC5 = .reject 404 ∧
    serveHandler shaDemo reqC5 envC5 ≠ .reject 400 ∧
    reqC5.amount = some (-5) := by
  refine ⟨rfl, fun hc => ?_, rfl⟩
  rw [show serveHandler shaDemo reqC5 envC5 = ServeResult.reject 404 from rfl] at hc
  simp at hc

/-- C5 (amended): for a request whose five parameters parse and an
environment with no internal failures, the handler rejects 404 exactly
when the clearRoot maps to no stored file (this takes precedence over the
parameter checks); when a file exists it rejects 400 exactly when the
amount is below 1, the reveal deadline is less than minRevealDur away, or
the refund window exceeds maxRefundDur; and every rejection carries no
response body. -/
theorem claim_C5_reject_conditions (sha : Bytes → Bytes) (req : ServeRequest) (env : ServeEnv)
    (cr : Bytes) (a : Int) (aid : Bytes) (rms fms : Nat)
    (hcr : req.clearRoot = some cr) (ha : req.amount = some a) (haid : req.assetID = some aid)
    (hrms : req.revealDeadlineMS = some rms) (hfms : req.refundDeadlineMS = some fms)
    (hct : env.contentTypeOk = true)
    (h1 : env.randKeyOk = true) (h2 : env.randTidOk = true) (h3 : env.tempfileOk = true)
    (h4 : env.closeOk = true) (h5 : env.storeOk = true) (h6 : env.reopenOk = true)
    (h7 : env.copyOk = true) :
    (serveHandler sha req env = .reject 404 ↔ env.fileContents = none) ∧
    (env.fileContents ≠ none →
      (serveHandler sha req env = .reject 400 ↔
        (a < 1 ∨ (rms : Int) - (env.nowMS : Int) < minRevealDurMS ∨
          (fms : Int) - (rms : Int) > maxRefundDurMS))) ∧
    (∀ c, serveHandler sha req env = .reject c → bodyOf (serveHandler sha req env) = none) := by
  cases hf : env.fileContents with
  | none =>
    have hres : serveHandler sha req env = .reject 404 := by
      unfold serveHandler
      rw [hcr, hf]
    rw [hres]
    exact ⟨by simp, fun hne => absurd rfl hne, fun c _ => by simp [bodyOf]⟩
  | some f =>
    by_cases hlt : a < 1
    · have hres : serveHandler sha req env = .reject 400 := by
        unfold serveHandler
        rw [hcr, hf, hct, ha]
        simp [hlt]
      rw [hres]
      exact ⟨by simp [hf], fun _ => ⟨fun _ => Or.inl hlt, fun _ => rfl⟩,
        fun c _ => by simp [bodyOf]⟩
    · have hcpt : checkPrice a = true := by
        simp only [checkPrice, decide_eq_true_eq]
        omega
      by_cases hrev : (rms : Int) - (env.nowMS : Int) < minRevealDurMS
      · have hres : serveHandler sha req env = .reject 400 := by
          unfold serveHandler
          rw [hcr, hf, hct, ha, haid, hrms]
          simp [hcpt, hlt, hrev]
        rw [hres]
        exact ⟨by simp [hf], fun _ => ⟨fun _ => Or.inr (Or.inl hrev), fun _ => rfl⟩,
          fun c _ => by simp [bodyOf]⟩
      · by_cases hrf : (fms : Int) - (rms : Int) > maxRefundDurMS
        · have hres : serveHandler sha req env = .reject 400 := by
            unfold serveHandler
            rw [hcr, hf, hct, ha, haid, hrms, hfms]
            simp [hcpt, hlt, hrev, hrf]
          rw [hres]
          exact ⟨by simp [hf], fun _ => ⟨fun _ => Or.inr (Or.inr hrf), fun _ => rfl⟩,
            fun c _ => by simp [bodyOf]⟩
        · have hres : isStream (serveHandler sha req env) = true := by
            unfold serveHandler
            rw [hcr, hf, hct, ha, haid, hrms, hfms]
            simp [hcpt, hlt, hrev, hrf]
            exact serveFinish_stream sha env cr a aid rms fms f h1 h2 h3 h4 h5 h6 h7
          obtain ⟨t, b, rec, heq⟩ := (isStream_iff _).mp hres
          rw [heq]
          refine ⟨by simp [hf], fun _ => ?_, fun c hc => by simp at hc⟩
          constructor
          · intro hc
            simp at hc
          · intro hor
            rcases hor with hx | hx | hx
            · exact absurd hx hlt
            · exact absurd hx hrev
            · exact absurd hx hrf

/-- C5 witness: the reject-conditions theorem applied at the accepted
request of the C2 input. -/
theorem claim_C5_witness :
    (serveHandler shaDemo reqC2 envC2 = .reject 404 ↔ envC2.fileContents = none) ∧
    (envC2.fileContents ≠ none →
      (serveHandler shaDemo reqC2 envC2 = .reject 400 ↔
        ((1 : Int) < 1 ∨ (1200000 : Int) - (envC2.nowMS : Int) < minRevealDurMS ∨
          (600000 : Int) - (1200000 : Int) > maxRefundDurMS))) ∧
    (∀ c, serveHandler shaDemo reqC2 envC2 = .reject c →
      bodyOf (serveHandler shaDemo reqC2 envC2) = none) :=
  claim_C5_reject_conditions shaDemo reqC2 envC2 [] 1 [] 1200000 600000
    rfl rfl rfl rfl rfl rfl rfl rfl rfl rfl rfl rfl rfl

/-! ### Store round-trip and startup queueing lemmas -/

theorem dbLookup_dbInsert (tid : Bytes) (b : Bucket) :
    ∀ db : Db, dbLookup tid (dbInsert tid b db) = some b := by
  intro db
  induction db with
  | nil => simp [dbInsert, dbLookup]
  | cons p rest ih =>
    by_cases h : p.1 = tid
    · simp [dbInsert, dbLookup, h]
    · simp only [dbInsert, dbLookup, if_neg h]
      exact ih

/-- The store/load round trip behind claim C10, shared with the C8
witness. -/
theorem getRecord_storeRecord (rec : ServerRecord) (db : Db)
    (h1 : -(2 ^ 63) ≤ rec.amount) (h2 : rec.amount < 2 ^ 63)
    (h3 : millis rec.revealDeadline < 2 ^ 64) (h4 : millis rec.refundDeadline < 2 ^ 64) :
    getRecord (storeRecord rec db) rec.transferID =
      some { transferID := rec.transferID
             amount := rec.amount
             assetID := rec.assetID
             anchor1 := []
             anchor2 := []
             clearRoot := rec.clearRoot
             cipherRoot := rec.cipherRoot
             revealDeadline := fromMillis (millis rec.revealDeadline)
             refundDeadline := fromMillis (millis rec.refundDeadline)
             buyer := []
             seller := []
             key := rec.key
             outputID := [] } := by
  unfold getRecord storeRecord
  rw [dbLookup_dbInsert rec.transferID (bucketOfRecord rec) db]
  show (match readVarint (bucketOfRecord rec).amount with
    | none => none
    | some (amount, _) => _) = _
  rw [show (bucketOfRecord rec).amount = putVarint rec.amount from rfl,
    readVarint_putVarint rec.amount h1 h2]
  show (match readUvarint (bucketOfRecord rec).revealDeadlineMS with
    | none => none
    | some (revealMS, _) => _) = _
  rw [show (bucketOfRecord rec).revealDeadlineMS = putUvarint (millis rec.revealDeadline)
      from rfl,
    readUvarint_putUvarint (millis rec.revealDeadline) h3]
  show (match readUvarint (bucketOfRecord rec).refundDeadlineMS with
    | none => none
    | some (refundMS, _) => _) = _
  rw [show (bucketOfRecord rec).refundDeadlineMS = putUvarint (millis rec.refundDeadline)
      from rfl,
    readUvarint_putUvarint (millis rec.refundDeadline) h4]
  rfl

/-- Inversion of a successful getRecord: the bucket is present and all
three varint fields parse. -/
theorem getRecord_some (db : Db) (tid : Bytes) (rec : ServerRecord)
    (h : getRecord db tid = some rec) :
    ∃ bu a n1 r n2 f n3, dbLookup tid db = some bu ∧
      readVarint bu.amount = some (a, n1) ∧
      readUvarint bu.revealDeadlineMS = some (r, n2) ∧
      readUvarint bu.refundDeadlineMS = some (f, n3) ∧
      rec = { transferID := tid
              amount := a
              assetID := bu.assetID
              anchor1 := []
              anchor2 := []
              clearRoot := bu.clearRoot
              cipherRoot := bu.cipherRoot
              revealDeadline := fromMillis r
              refundDeadline := fromMillis f
              buyer := []
              seller := []
              key := bu.key
              outputID := [] } := by
  unfold getRecord at h
  split at h
  · cases h
  rename_i bu hbu
  split at h
  · cases h
  rename_i a n1 hpa
  split at h
  · cases h
  rename_i r n2 hpr
  split at h
  · cases h
  rename_i f n3 hpf
  injection h with h
  exact ⟨bu, a, n1, r, n2, f, n3, hbu, hpa, hpr, hpf, h.symm⟩

theorem dbLookup_of_mem_nodup (tid : Bytes) (bu : Bucket) :
    ∀ db : Db, (tid, bu) ∈ db → (db.map fun p => p.1).Nodup → dbLookup tid db = some bu := by
  intro db
  induction db with
  | nil => intro h; simp at h
  | cons p rest ih =>
    intro hmem hnd
    rcases List.mem_cons.mp hmem with h | h
    · rw [← h]
      simp [dbLookup]
    · have hne : ¬ p.1 = tid := by
        intro he
        have : tid ∈ rest.map fun q => q.1 := List.mem_map.mpr ⟨(tid, bu), h, rfl⟩
        rw [List.map_cons, List.nodup_cons, he] at hnd
        exact hnd.1 this
      rw [dbLookup, if_neg hne]
      exact ih h ((List.nodup_cons.mp (by simpa using hnd)).2)

theorem enqueueAll_mem (db : Db) :
    ∀ (tids : List Bytes) (es : List ClaimEntry), enqueueAll db tids = some es →
      ∀ tid ∈ tids, ∃ e ∈ es, queueClaimPayment db tid = some e := by
  intro tids
  induction tids with
  | nil => intro es h tid hmem; simp at hmem
  | cons t rest ih =>
    intro es h tid hmem
    rw [enqueueAll] at h
    cases hq : queueClaimPayment db t with
    | none => rw [hq] at h; cases h
    | some e =>
      rw [hq] at h
      cases hr : enqueueAll db rest with
      | none => rw [hr] at h; cases h
      | some es0 =>
        rw [hr] at h
        simp only [Option.map_some'] at h
        injection h with h
        subst h
        rcases List.mem_cons.mp hmem with hx | hx
        · exact ⟨e, List.mem_cons_self e es0, hx ▸ hq⟩
        · obtain ⟨e0, he0, hqe⟩ := ih es0 hr tid hx
          exact ⟨e0, List.mem_cons_of_mem e he0, hqe⟩

/-- C8: whenever the startup scan succeeds, every transfer record
persisted in the store gets a claim-payment entry enqueued at its
recorded refund deadline (the uvarint-decoded stored millisecond value,
as a time). -/
theorem claim_C8_startup_requeues (db : Db) (entries : List ClaimEntry)
    (hq : startupEnqueue db = some entries)
    (hnd : (db.map fun p => p.1).Nodup)
    (tid : Bytes) (bu : Bucket) (hmem : (tid, bu) ∈ db) :
    ∃ rms n, readUvarint bu.refundDeadlineMS = some (rms, n) ∧
      ({ dueAt := fromMillis rms, transferID := tid } : ClaimEntry) ∈ entries := by
  have htid : tid ∈ db.map fun p => p.1 := List.mem_map.mpr ⟨(tid, bu), hmem, rfl⟩
  have hq2 : enqueueAll db (db.map fun p => p.1) = some entries := hq
  obtain ⟨e, hein, hqe⟩ := enqueueAll_mem db (db.map fun p => p.1) entries hq2 tid htid
  have hl : dbLookup tid db = some bu := dbLookup_of_mem_nodup tid bu db hmem hnd
  unfold queueClaimPayment at hqe
  cases hgr : getRecord db tid with
  | none => rw [hgr] at hqe; cases hqe
  | some rec0 =>
    rw [hgr] at hqe
    simp only [Option.map_some'] at hqe
    injection hqe with hqe
    obtain ⟨bu2, a, n1, r, n2, f, n3, hbu2, hpa, hpr, hpf, hrec⟩ :=
      getRecord_some db tid rec0 hgr
    rw [hl] at hbu2
    injection hbu2 with hbu2
    subst hbu2
    refine ⟨f, n3, hpf, ?_⟩
    rw [← hqe] at hein
    rw [hrec] at hein
    exact hein

/-- A concrete transfer record for the C8 and C10 witnesses: deadlines at
5 and 9 ms (in nanoseconds) after the epoch. -/
def recDemo : ServerRecord :=
  { transferID := [1]
    amount := 7
    assetID := [2]
    anchor1 := []
    anchor2 := []
    clearRoot := [3]
    cipherRoot := [4]
    revealDeadline := 5000000
    refundDeadline := 9000000
    buyer := []
    seller := []
    key := [6]
    outputID := [] }

/-- C8 witness: the startup-requeue theorem applied to the store holding
exactly the record recDemo. -/
theorem claim_C8_witness :
    ∃ rms n,
      readUvarint (bucketOfRecord recDemo).refundDeadlineMS = some (rms, n) ∧
      ({ dueAt := fromMillis rms, transferID := [1] } : ClaimEntry) ∈
        [({ dueAt := fromMillis (millis recDemo.refundDeadline),
            transferID := recDemo.transferID } : ClaimEntry)] := by
  have hget := getRecord_storeRecord recDemo [] (by norm_num [recDemo])
    (by norm_num [recDemo]) (by norm_num [recDemo, millis]) (by norm_num [recDemo, millis])
  have hq : startupEnqueue (storeRecord recDemo []) =
      some [{ dueAt := fromMillis (millis recDemo.refundDeadline),
              transferID := recDemo.transferID }] := by
    have hdb : storeRecord recDemo [] = [(recDemo.transferID, bucketOfRecord recDemo)] := rfl
    unfold startupEnqueue
    rw [hdb]
    show enqueueAll (storeRecord recDemo []) [recDemo.transferID] = _
    rw [enqueueAll]
    unfold queueClaimPayment
    rw [hget]
    simp [enqueueAll, queueClaimPaymentHelper]
  exact claim_C8_startup_requeues (storeRecord recDemo [])
    [{ dueAt := fromMillis (millis recDemo.refundDeadline), transferID := recDemo.transferID }]
    hq (by simp [storeRecord, dbInsert]) [1] (bucketOfRecord recDemo)
    (by simp [storeRecord, dbInsert, recDemo])

/-- C10: a record stored by storeRecord reads back by getRecord with the
same amount, assetID, clearRoot, cipherRoot and key, and with both
deadlines truncated to millisecond precision. -/
theorem claim_C10_store_roundtrip (rec : ServerRecord) (db : Db)
    (h1 : -(2 ^ 63) ≤ rec.amount) (h2 : rec.amount < 2 ^ 63)
    (h3 : millis rec.revealDeadline < 2 ^ 64) (h4 : millis rec.refundDeadline < 2 ^ 64) :
    ∃ out,
      getRecord (storeRecord rec db) rec.transferID = some out ∧
      out.amount = rec.amount ∧ out.assetID = rec.assetID ∧
      out.clearRoot = rec.clearRoot ∧ out.cipherRoot = rec.cipherRoot ∧
      out.key = rec.key ∧
      out.revealDeadline = rec.revealDeadline / 1000000 * 1000000 ∧
      out.refundDeadline = rec.refundDeadline / 1000000 * 1000000 := by
  refine ⟨_, getRecord_storeRecord rec db h1 h2 h3 h4, rfl, rfl, rfl, rfl, rfl, ?_, ?_⟩
  · rfl
  · rfl

/-- C10 witness: the round-trip theorem applied at recDemo over the empty
store. -/
theorem claim_C10_witness :
    ∃ out,
      getRecord (storeRecord recDemo []) recDemo.transferID = some out ∧
      out.amount = recDemo.amount ∧ out.assetID = recDemo.assetID ∧
      out.clearRoot = recDemo.clearRoot ∧ out.cipherRoot = recDemo.cipherRoot ∧
      out.key = recDemo.key ∧
      out.revealDeadline = recDemo.revealDeadline / 1000000 * 1000000 ∧
      out.refundDeadline = recDemo.refundDeadline / 1000000 * 1000000 :=
  claim_C10_store_roundtrip recDemo [] (by norm_num [recDemo]) (by norm_num [recDemo])
    (by norm_num [recDemo, millis]) (by norm_num [recDemo, millis])

end Tredd
